import Mathlib

/-!
Verification of the rent-division program (`src/main.py`).

The program pairs a maximum-weight bipartite matching (agents = "persons",
goods = "rooms") with a deterministic completion pass, and then solves a
linear feasibility program for an envy-free, nonnegative price vector that
sums to the given rent.

Shallow embedding notes:
* Valuations, prices and the rent are rationals (the Python program works
  with real numbers through the LP solver; all reasoning here is exact).
* `networkx.max_weight_matching` is an external library routine.  It is
  modelled by a parameter `nx_alloc : List (Vertex × Vertex)`: theorems that
  depend on it carry its documented contract (it returns a matching of the
  person/room graph, of maximum total weight) as hypotheses.
* The cvxpy/ECOS solve is an external library routine.  It is modelled by a
  parameter `run : SolveRun` (a status plus a candidate point), and theorems
  carry its documented contract (`solver_ok`) as a hypothesis: a point
  reported optimal satisfies the constraints, and an infeasible program is
  reported with the infeasible status.
* A Python exception that escapes `find_rent_with_nonnegative_prices`
  (the `IndexError` on `valuations[0]` for an empty matrix, or a cvxpy
  `SolverError`) is modelled by the `PricerOutput.crash` outcome.
-/

/-- `len(valuations)` — the number of persons (agents). -/
def num_people (valuations : List (List ℚ)) : ℕ := valuations.length

/-- `len(valuations[0])` — the number of rooms (goods); `0` for an empty
matrix (the places where the Python code would raise on an empty matrix
are modelled explicitly). -/
def num_rooms (valuations : List (List ℚ)) : ℕ := (valuations.headD []).length

/-- `valuations[i][j]`, defaulting to `0` out of range. -/
def vget (valuations : List (List ℚ)) (i j : ℕ) : ℚ :=
  (valuations.getD i []).getD j 0

/-- A vertex of the bipartite graph built by `max_sum_valuations`:
the string `f"person {i}"` or `f"room {j}"`. -/
inductive Vertex : Type
  | person (i : ℕ)
  | room (j : ℕ)
deriving DecidableEq, Repr

/-- Line 42 of `main.py`: `(person, room) if 'person' in person else (room, person)`,
followed by parsing the index after the space.  A pair whose first component
is a person-string is kept, any other pair is swapped, and then the indices
are read off with the first component as the person. -/
def fix_pair : Vertex × Vertex → ℕ × ℕ
  | (Vertex.person i, Vertex.room j) => (i, j)
  | (Vertex.person i, Vertex.person j) => (i, j)
  | (Vertex.room j, Vertex.person i) => (i, j)
  | (Vertex.room j, Vertex.room i) => (i, j)

/-- The normalised allocation `fixed_alloc` (person index first). -/
def fix_alloc (nx_alloc : List (Vertex × Vertex)) : List (ℕ × ℕ) :=
  nx_alloc.map fix_pair

/-- Lines 73–76 of `main.py`: all rooms `0..m-1` that are not the room
component of any pair of the current allocation. -/
def availableRooms (valuations : List (List ℚ)) (alloc : List (ℕ × ℕ)) : List ℕ :=
  (List.range (num_rooms valuations)).filter (fun r => alloc.all (fun pr => pr.2 ≠ r))

/-- One iteration of the completion loop (lines 71–81 of `main.py`) for a
given `person`.  The state is the current allocation paired with the list of
persons for whom the warning `"person %d couldn't be assigned a room"` was
logged. -/
def assignStep (valuations : List (List ℚ)) (allocated_people : List ℕ)
    (st : List (ℕ × ℕ) × List ℕ) (person : ℕ) : List (ℕ × ℕ) × List ℕ :=
  if person ∈ allocated_people then st
  else
    match availableRooms valuations st.1 with
    | [] => (st.1, st.2 ++ [person])
    | r :: _ => (st.1 ++ [(person, r)], st.2)

/-- The completion loop of `assign_rooms_for_unallocated_people`
(lines 68–81 of `main.py`), before the final sort: the allocation after the
loop together with the warned (unassignable) persons. -/
def complete_allocation (fixed_alloc : List (ℕ × ℕ)) (valuations : List (List ℚ)) :
    List (ℕ × ℕ) × List ℕ :=
  (List.range (num_people valuations)).foldl
    (assignStep valuations (fixed_alloc.map Prod.fst)) (fixed_alloc, [])

/-- The comparison used by the sort of line 84 of `main.py`
(`key=lambda x: int(x[0].split()[1])`): compare person indices. -/
def byPerson (a b : ℕ × ℕ) : Prop := a.1 ≤ b.1

instance : DecidableRel byPerson := fun a b => Nat.decLe a.1 b.1

instance : IsTotal (ℕ × ℕ) byPerson := ⟨fun a b => Nat.le_total a.1 b.1⟩

instance : IsTrans (ℕ × ℕ) byPerson := ⟨fun _ _ _ => Nat.le_trans⟩

/-- `assign_rooms_for_unallocated_people` (lines 53–85 of `main.py`):
complete the allocation, then sort it (stably) by person index (line 84). -/
def assign_rooms_for_unallocated_people (fixed_alloc : List (ℕ × ℕ))
    (valuations : List (List ℚ)) : List (ℕ × ℕ) :=
  (complete_allocation fixed_alloc valuations).1.insertionSort byPerson

/-- The persons warned as unassignable during the completion loop
(line 81 of `main.py`; the Python code reports them through the logger). -/
def allocation_warnings (fixed_alloc : List (ℕ × ℕ)) (valuations : List (List ℚ)) :
    List ℕ :=
  (complete_allocation fixed_alloc valuations).2

/-- `max_sum_valuations` (lines 17–50 of `main.py`).  The call to
`nx.max_weight_matching` is modelled by the parameter `nx_alloc`; the rest of
the function normalises the pairs and completes/sorts the allocation. -/
def max_sum_valuations (valuations : List (List ℚ)) (nx_alloc : List (Vertex × Vertex)) :
    List (ℕ × ℕ) :=
  assign_rooms_for_unallocated_people (fix_alloc nx_alloc) valuations

/-- A valid valuation matrix: at least one agent, at least one good, all
rows of equal length, all entries nonnegative. -/
def validMatrix (valuations : List (List ℚ)) : Prop :=
  1 ≤ num_people valuations ∧ 1 ≤ num_rooms valuations ∧
  (∀ row ∈ valuations, row.length = num_rooms valuations) ∧
  (∀ row ∈ valuations, ∀ x ∈ row, 0 ≤ x)

/-- A (partial) matching of persons `0..n-1` to rooms `0..m-1`, written as a
list of normalised pairs: person indices pairwise distinct, room indices
pairwise distinct, all indices in range. -/
def isMatchingList (n m : ℕ) (pairs : List (ℕ × ℕ)) : Prop :=
  (pairs.map Prod.fst).Nodup ∧ (pairs.map Prod.snd).Nodup ∧
  ∀ pr ∈ pairs, pr.1 < n ∧ pr.2 < m

instance (n m : ℕ) (pairs : List (ℕ × ℕ)) : Decidable (isMatchingList n m pairs) := by
  unfold isMatchingList; infer_instance

/-- The total valuation weight of a set of (person, room) pairs: the quantity
maximised by `nx.max_weight_matching` on the graph of lines 30–35. -/
def matchWeight (valuations : List (List ℚ)) (pairs : List (ℕ × ℕ)) : ℚ :=
  (pairs.map (fun pr => vget valuations pr.1 pr.2)).sum

/-- The documented contract of `nx.max_weight_matching` on the person/room
graph: the normalised result is a matching, and no matching has larger total
weight. -/
def isMaxMatching (valuations : List (List ℚ)) (pairs : List (ℕ × ℕ)) : Prop :=
  isMatchingList (num_people valuations) (num_rooms valuations) pairs ∧
  ∀ q, isMatchingList (num_people valuations) (num_rooms valuations) q →
    matchWeight valuations q ≤ matchWeight valuations pairs

/-- `price_rooms[j]` for a concrete candidate price vector. -/
def price_get (p : List ℚ) (j : ℕ) : ℚ := p.getD j 0

/-- The envy-freeness constraints built in lines 144–152 of `main.py`: for
every allocated pair and every other room, the assigned room net of its
price is weakly preferred. -/
def envy_constraints_hold (valuations : List (List ℚ)) (alloc : List (ℕ × ℕ))
    (p : List ℚ) : Prop :=
  ∀ pr ∈ alloc, ∀ other < num_rooms valuations, other ≠ pr.2 →
    vget valuations pr.1 other - price_get p other ≤
      vget valuations pr.1 pr.2 - price_get p pr.2

instance (valuations : List (List ℚ)) (alloc : List (ℕ × ℕ)) (p : List ℚ) :
    Decidable (envy_constraints_hold valuations alloc p) := by
  unfold envy_constraints_hold; infer_instance

/-- The full constraint set of the pricing program of
`find_rent_with_nonnegative_prices` (lines 133–152 of `main.py`): one price
variable per room, prices sum to the rent, prices nonnegative, and the
envy-freeness constraints. -/
def pricing_constraints_hold (valuations : List (List ℚ)) (alloc : List (ℕ × ℕ))
    (rent : ℚ) (p : List ℚ) : Prop :=
  p.length = num_rooms valuations ∧ p.sum = rent ∧
  (∀ x ∈ p, 0 ≤ x) ∧ envy_constraints_hold valuations alloc p

instance (valuations : List (List ℚ)) (alloc : List (ℕ × ℕ)) (rent : ℚ) (p : List ℚ) :
    Decidable (pricing_constraints_hold valuations alloc rent p) := by
  unfold pricing_constraints_hold; infer_instance

/-- Feasibility of the pricing program: some price vector satisfies all its
constraints. -/
def pricing_feasible (valuations : List (List ℚ)) (alloc : List (ℕ × ℕ))
    (rent : ℚ) : Prop :=
  ∃ p, pricing_constraints_hold valuations alloc rent p

/-- The status of a cvxpy solve, as observed by line 159 of `main.py`
(`prob.status == 'optimal'`): `optimal`; `infeasible` (a clean infeasibility
certificate); `inaccurate`, covering every other terminating status, such as
cvxpy's inaccurate/indeterminate ones, where the solver could not decide;
and `error`, a raised `SolverError`. -/
inductive SolveStatus : Type
  | optimal
  | infeasible
  | inaccurate
  | error
deriving DecidableEq, Repr

/-- One run of the external solver: its final status and the point it
reports (`price_rooms[i].value`). -/
structure SolveRun : Type where
  status : SolveStatus
  point : List ℚ
deriving DecidableEq, Repr

/-- The modelled contract of the ECOS solve on the pricing program: a point
reported optimal satisfies the constraints, and an infeasible program is
detected and reported with the clean infeasible status. -/
def solver_ok (valuations : List (List ℚ)) (alloc : List (ℕ × ℕ)) (rent : ℚ)
    (run : SolveRun) : Prop :=
  (run.status = SolveStatus.optimal →
     pricing_constraints_hold valuations alloc rent run.point) ∧
  (¬ pricing_feasible valuations alloc rent → run.status = SolveStatus.infeasible)

/-- `np.round`: round to the nearest integer, ties to the even integer. -/
def np_round (q : ℚ) : ℤ :=
  if q - ⌊q⌋ = 1 / 2 then (if ⌊q⌋ % 2 = 0 then ⌊q⌋ else ⌊q⌋ + 1) else round q

/-- Integer mirror of `vget`, used for finite kernel computations over
concrete integer-valued matrices. -/
def vgetZ (valuations : List (List ℤ)) (i j : ℕ) : ℤ :=
  (valuations.getD i []).getD j 0

/-- The observable outcome of `find_rent_with_nonnegative_prices`:
the success branch prints the allocation and the per-room prices
(lines 160–163), the failure branch prints
`"Can not find allocation with prices >= 0"` (line 165), and `crash` models
an uncaught Python exception escaping the call. -/
inductive PricerOutput : Type
  | success (alloc : List (ℕ × ℕ)) (printedPrices : List ℚ)
  | failure
  | crash
deriving DecidableEq, Repr

/-- `find_rent_with_nonnegative_prices` (lines 89–165 of `main.py`).  An
empty valuation matrix crashes on `valuations[0]` (line 130); a raised
`SolverError` crashes; an optimal status prints the allocation and the
`np.round`-ed prices; any other status prints the failure message.  The
matching and the solver run are the modelled external inputs. -/
def find_rent_with_nonnegative_prices (valuations : List (List ℚ)) (rent : ℚ)
    (nx_alloc : List (Vertex × Vertex)) (run : SolveRun) : PricerOutput :=
  if valuations.isEmpty then PricerOutput.crash
  else
    match run.status with
    | SolveStatus.optimal =>
        PricerOutput.success (max_sum_valuations valuations nx_alloc)
          (run.point.map (fun q => ((np_round q : ℤ) : ℚ)))
    | SolveStatus.error => PricerOutput.crash
    | _ => PricerOutput.failure

/-- The lowest-index good not yet claimed, as described by the completion
step of the design: scan good indices `0..m-1` in ascending order. -/
def lowestUnclaimed (m : ℕ) (claimed : List ℕ) : Option ℕ :=
  (List.range m).find? (fun r => !(claimed.contains r))

/-- The completion pass exactly as the design describes it: walk the
unallocated agents in the given order; each receives the lowest-index good
not already claimed (goods claimed earlier in the same pass count as
claimed); an agent for whom no good remains is skipped and reported.
Returns the added pairs and the reported agents. -/
def completionSpec (m : ℕ) : List ℕ → List ℕ → List (ℕ × ℕ) × List ℕ
  | [], _ => ([], [])
  | p :: ps, claimed =>
    match lowestUnclaimed m claimed with
    | some r =>
        let rest := completionSpec m ps (claimed ++ [r])
        ((p, r) :: rest.1, rest.2)
    | none =>
        let rest := completionSpec m ps claimed
        (rest.1, p :: rest.2)

/-- Scenario C valuations. -/
def valsC : List (List ℚ) := [[150, 0], [140, 10]]

/-- Scenario D valuations. -/
def valsD : List (List ℚ) :=
  [[36, 34, 30, 0], [31, 36, 33, 0], [34, 30, 36, 0], [32, 33, 35, 0]]

/-- A concrete `nx.max_weight_matching` result for Scenario C (the matching
shown in the docstring of `max_sum_valuations`). -/
def nxC : List (Vertex × Vertex) :=
  [(Vertex.person 0, Vertex.room 0), (Vertex.person 1, Vertex.room 1)]

/-- A concrete `nx.max_weight_matching` result for Scenario D (the matching
shown in the docstring of `assign_rooms_for_unallocated_people`, plus the
zero-weight edge for person 3). -/
def nxD : List (Vertex × Vertex) :=
  [(Vertex.person 0, Vertex.room 0), (Vertex.person 1, Vertex.room 1),
   (Vertex.person 2, Vertex.room 2), (Vertex.person 3, Vertex.room 3)]

/-- Integer mirror of the Scenario C valuations. -/
def valsCZ : List (List ℤ) := [[150, 0], [140, 10]]

/-- Integer mirror of the Scenario D valuations. -/
def valsDZ : List (List ℤ) :=
  [[36, 34, 30, 0], [31, 36, 33, 0], [34, 30, 36, 0], [32, 33, 35, 0]]

/-! ### Helper lemmas about the completion loop -/

lemma mem_availableRooms {valuations : List (List ℚ)} {alloc : List (ℕ × ℕ)} {r : ℕ} :
    r ∈ availableRooms valuations alloc ↔
      r < num_rooms valuations ∧ ∀ pr ∈ alloc, pr.2 ≠ r := by
  simp [availableRooms, List.mem_filter]

/-- Exhaustive case analysis of one completion step: either the person is
skipped (already allocated), or assigned the first available room, or warned
because no room is available. -/
lemma assignStep_cases (valuations : List (List ℚ)) (A : List ℕ)
    (st : List (ℕ × ℕ) × List ℕ) (p : ℕ) :
    (p ∈ A ∧ assignStep valuations A st p = st) ∨
    (p ∉ A ∧ ∃ r rest, availableRooms valuations st.1 = r :: rest ∧
       assignStep valuations A st p = (st.1 ++ [(p, r)], st.2)) ∨
    (p ∉ A ∧ availableRooms valuations st.1 = [] ∧
       assignStep valuations A st p = (st.1, st.2 ++ [p])) := by
  unfold assignStep
  by_cases hp : p ∈ A
  · exact Or.inl ⟨hp, by simp [hp]⟩
  · rcases havail : availableRooms valuations st.1 with _ | ⟨r, rest⟩
    · exact Or.inr (Or.inr ⟨hp, rfl, by simp [hp]⟩)
    · exact Or.inr (Or.inl ⟨hp, r, rest, rfl, by simp [hp]⟩)

/-- One completion step appends at most one pair, for the person being
processed, only when that person is unallocated, and only with a room that
was free. -/
lemma assignStep_fst (valuations : List (List ℚ)) (A : List ℕ)
    (st : List (ℕ × ℕ) × List ℕ) (p : ℕ) :
    (assignStep valuations A st p).1 = st.1 ∨
      (p ∉ A ∧ ∃ r ∈ availableRooms valuations st.1,
        (assignStep valuations A st p).1 = st.1 ++ [(p, r)]) := by
  rcases assignStep_cases valuations A st p with ⟨_, h⟩ | ⟨hp, r, rest, hav, h⟩ | ⟨_, _, h⟩
  · exact Or.inl (by rw [h])
  · exact Or.inr ⟨hp, r, by rw [hav]; exact List.mem_cons_self r rest, by rw [h]⟩
  · exact Or.inl (by rw [h])

/-- Frame property of the whole completion loop: the incoming allocation is
a prefix of the outgoing one, and every appended pair belongs to a processed,
previously unallocated person. -/
lemma assign_foldl_frame (valuations : List (List ℚ)) (A : List ℕ) :
    ∀ (ps : List ℕ) (st : List (ℕ × ℕ) × List ℕ),
    ∃ t, (ps.foldl (assignStep valuations A) st).1 = st.1 ++ t ∧
      ∀ pr ∈ t, pr.1 ∈ ps ∧ pr.1 ∉ A := by
  intro ps
  induction ps with
  | nil => exact fun st => ⟨[], by simp⟩
  | cons p ps ih =>
    intro st
    obtain ⟨t, ht, ht2⟩ := ih (assignStep valuations A st p)
    rcases assignStep_fst valuations A st p with hu | ⟨hp, r, _, hu⟩
    · refine ⟨t, by simp only [List.foldl_cons, ht, hu], ?_⟩
      exact fun pr hpr => ⟨List.mem_cons_of_mem p (ht2 pr hpr).1, (ht2 pr hpr).2⟩
    · refine ⟨(p, r) :: t, ?_, ?_⟩
      · simp only [List.foldl_cons, ht, hu, List.append_assoc, List.singleton_append]
      · intro pr hpr
        rcases List.mem_cons.mp hpr with h | h
        · subst h; exact ⟨List.mem_cons_self _ _, hp⟩
        · exact ⟨List.mem_cons_of_mem p (ht2 pr h).1, (ht2 pr h).2⟩

/-- The completion loop never double-books a room: distinctness of the room
components is preserved. -/
lemma assign_foldl_snd_nodup (valuations : List (List ℚ)) (A : List ℕ) :
    ∀ (ps : List ℕ) (st : List (ℕ × ℕ) × List ℕ),
    (st.1.map Prod.snd).Nodup →
    ((ps.foldl (assignStep valuations A) st).1.map Prod.snd).Nodup := by
  intro ps
  induction ps with
  | nil => exact fun _ h => h
  | cons p ps ih =>
    intro st hst
    refine ih _ ?_
    rcases assignStep_fst valuations A st p with hu | ⟨_, r, hr, hu⟩
    · rw [hu]; exact hst
    · rw [hu, List.map_append, List.nodup_append]
      refine ⟨hst, by simp, ?_⟩
      intro x hx
      simp only [List.map_cons, List.map_nil, List.mem_singleton]
      intro hxr
      subst hxr
      obtain ⟨pr, hpr, hpr2⟩ := List.mem_map.mp hx
      exact (mem_availableRooms.mp hr).2 pr hpr hpr2
/-- If the rooms outnumber the distinct, in-range persons of the current
allocation, a room is available. -/
lemma availableRooms_ne_nil (valuations : List (List ℚ)) {st1 : List (ℕ × ℕ)} {p : ℕ}
    (hfn : (st1.map Prod.fst).Nodup)
    (hfb : ∀ x ∈ st1.map Prod.fst, x < num_people valuations)
    (hfp : p ∉ st1.map Prod.fst) (hpn : p < num_people valuations)
    (hsn : (st1.map Prod.snd).Nodup)
    (hnm : num_people valuations ≤ num_rooms valuations) :
    availableRooms valuations st1 ≠ [] := by
  intro hav
  have hsub : (st1.map Prod.fst).toFinset ⊆ (Finset.range (num_people valuations)).erase p := by
    intro x hx
    rw [List.mem_toFinset] at hx
    exact Finset.mem_erase.mpr ⟨fun h => hfp (h ▸ hx), Finset.mem_range.mpr (hfb x hx)⟩
  have hcardf : (st1.map Prod.fst).length ≤ num_people valuations - 1 := by
    calc (st1.map Prod.fst).length = (st1.map Prod.fst).toFinset.card :=
          (List.toFinset_card_of_nodup hfn).symm
      _ ≤ ((Finset.range (num_people valuations)).erase p).card := Finset.card_le_card hsub
      _ ≤ num_people valuations - 1 := by
          rw [Finset.card_erase_of_mem (Finset.mem_range.mpr hpn)]
          simp
  have hlen : (st1.map Prod.snd).length < num_rooms valuations := by
    have h1 : (st1.map Prod.snd).length = (st1.map Prod.fst).length := by simp
    omega
  have hall : ∀ a ∈ List.range (num_rooms valuations), a ∈ (st1.map Prod.snd).toFinset := by
    intro a ha
    have := List.filter_eq_nil_iff.mp hav a ha
    simp only [List.all_eq_true, decide_eq_true_eq, not_forall] at this
    obtain ⟨pr, hpr, hpr2⟩ := this
    rw [List.mem_toFinset, List.mem_map]
    exact ⟨pr, hpr, by omega⟩
  have hge : num_rooms valuations ≤ (st1.map Prod.snd).toFinset.card := by
    have hsub2 : (List.range (num_rooms valuations)).toFinset ⊆ (st1.map Prod.snd).toFinset :=
      fun a ha => hall a (List.mem_toFinset.mp ha)
    calc num_rooms valuations = (List.range (num_rooms valuations)).length := by simp
      _ = (List.range (num_rooms valuations)).toFinset.card :=
          (List.toFinset_card_of_nodup (List.nodup_range _)).symm
      _ ≤ _ := Finset.card_le_card hsub2
  have := List.toFinset_card_le (st1.map Prod.snd)
  omega

/-- Master invariant of the completion loop: starting from a partial
matching, the loop keeps person and room components distinct and in range,
never removes a pair, and (when rooms outnumber persons) allocates every
processed unallocated person. -/
lemma assign_foldl_invariant (valuations : List (List ℚ)) (A : List ℕ) :
    ∀ (ps : List ℕ) (st : List (ℕ × ℕ) × List ℕ),
    ps.Nodup → (∀ p ∈ ps, p < num_people valuations) →
    num_people valuations ≤ num_rooms valuations →
    (∀ p ∈ ps, p ∉ A → p ∉ st.1.map Prod.fst) →
    (st.1.map Prod.fst).Nodup →
    (∀ x ∈ st.1.map Prod.fst, x < num_people valuations) →
    (st.1.map Prod.snd).Nodup →
    ((ps.foldl (assignStep valuations A) st).1.map Prod.fst).Nodup ∧
    (∀ x ∈ (ps.foldl (assignStep valuations A) st).1.map Prod.fst,
       x < num_people valuations) ∧
    (∀ pr ∈ st.1, pr ∈ (ps.foldl (assignStep valuations A) st).1) ∧
    (∀ p ∈ ps, p ∉ A → p ∈ (ps.foldl (assignStep valuations A) st).1.map Prod.fst) := by
  intro ps
  induction ps with
  | nil => exact fun st _ _ _ _ h1 h2 _ => ⟨h1, h2, fun _ h => h, by simp⟩
  | cons p ps ih =>
    intro st hnodup hbound hnm hcond hfn hfb hsn
    have hpn : p < num_people valuations := hbound p (List.mem_cons_self _ _)
    rcases assignStep_cases valuations A st p with ⟨hpA, heq⟩ |
        ⟨hp, r, rest, hav, heq⟩ | ⟨hp, hav, heq⟩
    · rw [List.foldl_cons, heq]
      obtain ⟨c1, c2, c3, c4⟩ := ih st (List.nodup_cons.mp hnodup).2
        (fun q hq => hbound q (List.mem_cons_of_mem p hq)) hnm
        (fun q hq hqA => hcond q (List.mem_cons_of_mem p hq) hqA) hfn hfb hsn
      refine ⟨c1, c2, c3, ?_⟩
      intro q hq hqA
      rcases List.mem_cons.mp hq with h | h
      · exact absurd (h ▸ hpA) hqA
      · exact c4 q h hqA
    · have hpf : p ∉ st.1.map Prod.fst := hcond p (List.mem_cons_self _ _) hp
      have hrmem : r ∈ availableRooms valuations st.1 := by
        rw [hav]; exact List.mem_cons_self r rest
      have hrm := mem_availableRooms.mp hrmem
      rw [List.foldl_cons, heq]
      have hst' : ((st.1 ++ [(p, r)], st.2) : List (ℕ × ℕ) × List ℕ).1.map Prod.fst =
          st.1.map Prod.fst ++ [p] := by simp
      obtain ⟨c1, c2, c3, c4⟩ := ih (st.1 ++ [(p, r)], st.2) (List.nodup_cons.mp hnodup).2
        (fun q hq => hbound q (List.mem_cons_of_mem p hq)) hnm
        (by
          intro q hq hqA
          rw [hst', List.mem_append]
          rintro (h | h)
          · exact hcond q (List.mem_cons_of_mem p hq) hqA h
          · simp only [List.mem_singleton] at h
            exact (List.nodup_cons.mp hnodup).1 (h ▸ hq))
        (by
          rw [hst', List.nodup_append]
          refine ⟨hfn, by simp, ?_⟩
          intro a ha hap
          simp only [List.mem_singleton] at hap
          exact hpf (hap ▸ ha))
        (by
          rw [hst']
          intro x hx
          rcases List.mem_append.mp hx with h | h
          · exact hfb x h
          · simp only [List.mem_singleton] at h
            exact h ▸ hpn)
        (by
          simp only [List.map_append, List.nodup_append]
          refine ⟨hsn, by simp, ?_⟩
          intro a ha har
          simp only [List.map_cons, List.map_nil, List.mem_singleton] at har
          obtain ⟨pr, hpr, hpr2⟩ := List.mem_map.mp ha
          exact hrm.2 pr hpr (hpr2.trans har))
      refine ⟨c1, c2, ?_, ?_⟩
      · intro pr hpr
        exact c3 pr (List.mem_append.mpr (Or.inl hpr))
      · intro q hq hqA
        rcases List.mem_cons.mp hq with h | h
        · subst h
          have : (q, r) ∈ (ps.foldl (assignStep valuations A) (st.1 ++ [(q, r)], st.2)).1 :=
            c3 (q, r) (List.mem_append.mpr (Or.inr (List.mem_singleton.mpr rfl)))
          exact List.mem_map.mpr ⟨(q, r), this, rfl⟩
        · exact c4 q h hqA
    · exact absurd hav
        (availableRooms_ne_nil valuations hfn hfb
          (hcond p (List.mem_cons_self _ _) hp) hpn hsn hnm)

/-! ### The completion loop refines the specified deterministic completion -/

lemma find?_eq_head_filter {α : Type} (p : α → Bool) :
    ∀ l : List α, l.find? p = (l.filter p).head? := by
  intro l
  induction l with
  | nil => rfl
  | cons a l ih =>
    cases h : p a
    · rw [List.find?_cons_of_neg _ (by simp [h]), List.filter_cons_of_neg (by simp [h]), ih]
    · rw [List.find?_cons_of_pos _ h, List.filter_cons_of_pos h]
      rfl

lemma availableRooms_pred (st1 : List (ℕ × ℕ)) (r : ℕ) :
    (st1.all fun pr => pr.2 ≠ r) = !((st1.map Prod.snd).contains r) := by
  induction st1 with
  | nil => rfl
  | cons pr l ih =>
    simp only [List.all_cons, List.map_cons, List.contains_cons, Bool.not_or, ih]
    congr 1
    rw [Bool.eq_iff_iff]
    simp only [decide_eq_true_eq, Bool.not_eq_true', beq_eq_false_iff_ne]
    exact ne_comm

lemma availableRooms_eq_filter_contains (valuations : List (List ℚ)) (st1 : List (ℕ × ℕ)) :
    availableRooms valuations st1 =
      (List.range (num_rooms valuations)).filter
        (fun r => !((st1.map Prod.snd).contains r)) := by
  unfold availableRooms
  exact List.filter_congr (fun r _ => availableRooms_pred st1 r)

lemma lowestUnclaimed_eq_head_availableRooms (valuations : List (List ℚ))
    (st1 : List (ℕ × ℕ)) :
    lowestUnclaimed (num_rooms valuations) (st1.map Prod.snd) =
      (availableRooms valuations st1).head? := by
  rw [lowestUnclaimed, find?_eq_head_filter, availableRooms_eq_filter_contains]

/-- The completion loop is the specified deterministic completion run on the
unallocated persons, in order: starting state `st`, the loop appends exactly
the pairs that `completionSpec` produces from the rooms currently claimed,
and warns exactly the persons `completionSpec` reports. -/
lemma assign_foldl_eq_spec (valuations : List (List ℚ)) (A : List ℕ) :
    ∀ (ps : List ℕ) (st : List (ℕ × ℕ) × List ℕ),
    ps.foldl (assignStep valuations A) st =
      (st.1 ++ (completionSpec (num_rooms valuations)
          (ps.filter (fun p => !(A.contains p))) (st.1.map Prod.snd)).1,
       st.2 ++ (completionSpec (num_rooms valuations)
          (ps.filter (fun p => !(A.contains p))) (st.1.map Prod.snd)).2) := by
  intro ps
  induction ps with
  | nil => intro st; simp [completionSpec]
  | cons p ps ih =>
    intro st
    by_cases hp : p ∈ A
    · have hfil : (p :: ps).filter (fun q => !(A.contains q)) =
          ps.filter (fun q => !(A.contains q)) := by
        simp [List.filter_cons, hp]
      have hstep : assignStep valuations A st p = st := by
        unfold assignStep; simp [hp]
      rw [List.foldl_cons, hstep, hfil, ih]
    · have hfil : (p :: ps).filter (fun q => !(A.contains q)) =
          p :: ps.filter (fun q => !(A.contains q)) := by
        simp [List.filter_cons, hp]
      rw [List.foldl_cons, hfil]
      rcases havail : availableRooms valuations st.1 with _ | ⟨r, rest⟩
      · have hstep : assignStep valuations A st p = (st.1, st.2 ++ [p]) := by
          unfold assignStep; simp [hp, havail]
        have hlow : lowestUnclaimed (num_rooms valuations) (st.1.map Prod.snd) = none := by
          rw [lowestUnclaimed_eq_head_availableRooms, havail]; rfl
        rw [hstep, ih]
        simp only [completionSpec, hlow]
        refine Prod.ext ?_ ?_ <;> simp
      · have hstep : assignStep valuations A st p = (st.1 ++ [(p, r)], st.2) := by
          unfold assignStep; simp [hp, havail]
        have hlow : lowestUnclaimed (num_rooms valuations) (st.1.map Prod.snd) = some r := by
          rw [lowestUnclaimed_eq_head_availableRooms, havail]; rfl
        rw [hstep, ih]
        simp only [completionSpec, hlow, List.map_append]
        refine Prod.ext ?_ ?_ <;> simp

/-! ### The sorted allocation -/

lemma assign_rooms_perm (fixed_alloc : List (ℕ × ℕ)) (valuations : List (List ℚ)) :
    (assign_rooms_for_unallocated_people fixed_alloc valuations).Perm
      (complete_allocation fixed_alloc valuations).1 :=
  List.perm_insertionSort byPerson _

lemma assign_rooms_sorted (fixed_alloc : List (ℕ × ℕ)) (valuations : List (List ℚ)) :
    ((assign_rooms_for_unallocated_people fixed_alloc valuations).map Prod.fst).Pairwise
      (· ≤ ·) :=
  List.Pairwise.map Prod.fst (fun _ _ h => h)
    (List.sorted_insertionSort byPerson (complete_allocation fixed_alloc valuations).1)

/-- With a valid input matching and at least as many rooms as persons, the
sorted completed allocation lists the persons exactly as `0, 1, ..., n-1`. -/
lemma assign_rooms_map_fst (valuations : List (List ℚ)) (fixed_alloc : List (ℕ × ℕ))
    (hF : isMatchingList (num_people valuations) (num_rooms valuations) fixed_alloc)
    (hnm : num_people valuations ≤ num_rooms valuations) :
    (assign_rooms_for_unallocated_people fixed_alloc valuations).map Prod.fst =
      List.range (num_people valuations) := by
  obtain ⟨c1, c2, c3, c4⟩ := assign_foldl_invariant valuations (fixed_alloc.map Prod.fst)
    (List.range (num_people valuations)) (fixed_alloc, [])
    (List.nodup_range _) (fun p hp => List.mem_range.mp hp) hnm
    (fun _ _ h h2 => absurd h2 h) hF.1
    (fun x hx => by
      obtain ⟨pr, hpr, hpr2⟩ := List.mem_map.mp hx
      exact hpr2 ▸ (hF.2.2 pr hpr).1)
    hF.2.1
  have hperm : ((assign_rooms_for_unallocated_people fixed_alloc valuations).map
      Prod.fst).Perm ((complete_allocation fixed_alloc valuations).1.map Prod.fst) :=
    (assign_rooms_perm fixed_alloc valuations).map Prod.fst
  have hmem : ∀ p, p ∈ (complete_allocation fixed_alloc valuations).1.map Prod.fst ↔
      p < num_people valuations := by
    intro p
    constructor
    · exact c2 p
    · intro hp
      by_cases hA : p ∈ fixed_alloc.map Prod.fst
      · obtain ⟨pr, hpr, hpr2⟩ := List.mem_map.mp hA
        exact List.mem_map.mpr ⟨pr, c3 pr hpr, hpr2⟩
      · exact c4 p (List.mem_range.mpr hp) hA
  apply List.eq_of_perm_of_sorted (r := (· ≤ · : ℕ → ℕ → Prop))
  · apply List.perm_of_nodup_nodup_toFinset_eq
    · exact (hperm.nodup_iff).mpr c1
    · exact List.nodup_range _
    · ext p
      rw [List.mem_toFinset, List.mem_toFinset, List.mem_range]
      rw [hperm.mem_iff]
      exact hmem p
  · exact assign_rooms_sorted fixed_alloc valuations
  · exact (List.sorted_lt_range _).imp le_of_lt

/-- No room is double-booked in the final sorted allocation, provided the
input matching does not double-book a room. -/
lemma assign_rooms_map_snd_nodup (valuations : List (List ℚ)) (fixed_alloc : List (ℕ × ℕ))
    (hsn : (fixed_alloc.map Prod.snd).Nodup) :
    ((assign_rooms_for_unallocated_people fixed_alloc valuations).map Prod.snd).Nodup :=
  (((assign_rooms_perm fixed_alloc valuations).map Prod.snd).nodup_iff).mpr
    (assign_foldl_snd_nodup valuations (fixed_alloc.map Prod.fst)
      (List.range (num_people valuations)) (fixed_alloc, []) hsn)

/-- Rooms stay in range through the completion loop. -/
lemma assign_foldl_snd_bound (valuations : List (List ℚ)) (A : List ℕ) :
    ∀ (ps : List ℕ) (st : List (ℕ × ℕ) × List ℕ),
    (∀ r ∈ st.1.map Prod.snd, r < num_rooms valuations) →
    ∀ r ∈ (ps.foldl (assignStep valuations A) st).1.map Prod.snd,
      r < num_rooms valuations := by
  intro ps
  induction ps with
  | nil => exact fun _ h => h
  | cons p ps ih =>
    intro st hst
    refine ih _ ?_
    rcases assignStep_fst valuations A st p with hu | ⟨_, r, hr, hu⟩
    · rw [hu]; exact hst
    · rw [hu, List.map_append]
      intro x hx
      rcases List.mem_append.mp hx with h | h
      · exact hst x h
      · simp only [List.map_cons, List.map_nil, List.mem_singleton] at h
        exact h ▸ (mem_availableRooms.mp hr).1

lemma assign_rooms_map_snd_bound (valuations : List (List ℚ)) (fixed_alloc : List (ℕ × ℕ))
    (hsb : ∀ r ∈ fixed_alloc.map Prod.snd, r < num_rooms valuations) :
    ∀ r ∈ (assign_rooms_for_unallocated_people fixed_alloc valuations).map Prod.snd,
      r < num_rooms valuations := by
  intro r hr
  have := ((assign_rooms_perm fixed_alloc valuations).map Prod.snd).mem_iff.mp hr
  exact assign_foldl_snd_bound valuations (fixed_alloc.map Prod.fst)
    (List.range (num_people valuations)) (fixed_alloc, []) hsb r this

/-! ### Weight bounds for matchings -/

lemma sum_map_le_of_nodup (u : ℕ → ℚ) (hu : ∀ i, 0 ≤ u i) {l : List ℕ} (hl : l.Nodup)
    {n : ℕ} (hb : ∀ x ∈ l, x < n) :
    (l.map u).sum ≤ ((List.range n).map u).sum := by
  rw [← List.sum_toFinset u hl, ← List.sum_toFinset u (List.nodup_range n)]
  apply Finset.sum_le_sum_of_subset_of_nonneg
  · intro x hx
    rw [List.mem_toFinset] at hx
    rw [List.mem_toFinset, List.mem_range]
    exact hb x hx
  · exact fun i _ _ => hu i

lemma sum_map_add_pair (f g : ℕ × ℕ → ℚ) (l : List (ℕ × ℕ)) :
    (l.map (fun pr => f pr + g pr)).sum = (l.map f).sum + (l.map g).sum := by
  induction l with
  | nil => simp
  | cons a l ih =>
    simp only [List.map_cons, List.sum_cons, ih]
    ring

/-- Dual bound: if nonnegative person/room potentials cover every valuation,
the weight of any matching is at most the total potential. -/
lemma matchWeight_le_potentials (valuations : List (List ℚ)) (n m : ℕ) (u w : ℕ → ℚ)
    (hu : ∀ i, 0 ≤ u i) (hw : ∀ j, 0 ≤ w j)
    (hcov : ∀ i j, i < n → j < m → vget valuations i j ≤ u i + w j)
    (pairs : List (ℕ × ℕ)) (hm : isMatchingList n m pairs) :
    matchWeight valuations pairs ≤
      ((List.range n).map u).sum + ((List.range m).map w).sum := by
  have h1 : matchWeight valuations pairs ≤ (pairs.map (fun pr => u pr.1 + w pr.2)).sum := by
    apply List.sum_le_sum
    intro pr hpr
    exact hcov pr.1 pr.2 (hm.2.2 pr hpr).1 (hm.2.2 pr hpr).2
  have h2 : (pairs.map (fun pr => u pr.1 + w pr.2)).sum =
      ((pairs.map Prod.fst).map u).sum + ((pairs.map Prod.snd).map w).sum := by
    rw [List.map_map, List.map_map]
    exact sum_map_add_pair (fun pr => u pr.1) (fun pr => w pr.2) pairs
  have h3 : ((pairs.map Prod.fst).map u).sum ≤ ((List.range n).map u).sum := by
    apply sum_map_le_of_nodup u hu hm.1
    intro x hx
    obtain ⟨pr, hpr, hpr2⟩ := List.mem_map.mp hx
    exact hpr2 ▸ (hm.2.2 pr hpr).1
  have h4 : ((pairs.map Prod.snd).map w).sum ≤ ((List.range m).map w).sum := by
    apply sum_map_le_of_nodup w hw hm.2.1
    intro x hx
    obtain ⟨pr, hpr, hpr2⟩ := List.mem_map.mp hx
    exact hpr2 ▸ (hm.2.2 pr hpr).2
  calc matchWeight valuations pairs ≤ _ := h1
    _ = _ := h2
    _ ≤ _ := add_le_add h3 h4

lemma matchWeight_congr_perm (valuations : List (List ℚ)) {l1 l2 : List (ℕ × ℕ)}
    (h : l1.Perm l2) : matchWeight valuations l1 = matchWeight valuations l2 :=
  (h.map _).sum_eq

lemma vget_nonneg {valuations : List (List ℚ)}
    (h : ∀ row ∈ valuations, ∀ x ∈ row, 0 ≤ x) (i j : ℕ) : 0 ≤ vget valuations i j := by
  unfold vget
  by_cases hi : i < valuations.length
  · have hrow : valuations.getD i [] ∈ valuations := by
      rw [List.getD_eq_getElem valuations [] hi]
      exact List.getElem_mem hi
    by_cases hj : j < (valuations.getD i []).length
    · have : (valuations.getD i []).getD j 0 ∈ valuations.getD i [] := by
        rw [List.getD_eq_getElem _ 0 hj]
        exact List.getElem_mem hj
      exact h _ hrow _ this
    · rw [List.getD_eq_default _ 0 (Nat.le_of_not_lt hj)]
  · rw [List.getD_eq_default _ [] (Nat.le_of_not_lt hi)]
    simp

/-- The completed, sorted allocation weighs at least as much as the matching
it started from, for a nonnegative valuation matrix. -/
lemma matchWeight_le_assign_rooms (valuations : List (List ℚ))
    (fixed_alloc : List (ℕ × ℕ))
    (hpos : ∀ i j, 0 ≤ vget valuations i j) :
    matchWeight valuations fixed_alloc ≤
      matchWeight valuations
        (assign_rooms_for_unallocated_people fixed_alloc valuations) := by
  obtain ⟨t, ht, _⟩ := assign_foldl_frame valuations (fixed_alloc.map Prod.fst)
    (List.range (num_people valuations)) (fixed_alloc, [])
  rw [matchWeight_congr_perm valuations (assign_rooms_perm fixed_alloc valuations)]
  show matchWeight valuations fixed_alloc ≤
    matchWeight valuations (complete_allocation fixed_alloc valuations).1
  rw [show (complete_allocation fixed_alloc valuations).1 = fixed_alloc ++ t from ht]
  unfold matchWeight
  rw [List.map_append, List.sum_append]
  have : 0 ≤ (t.map (fun pr => vget valuations pr.1 pr.2)).sum := by
    apply List.sum_nonneg
    intro x hx
    obtain ⟨pr, _, hpr2⟩ := List.mem_map.mp hx
    exact hpr2 ▸ hpos pr.1 pr.2
  linarith

lemma eq_pair_of_map_fst {l : List (ℕ × ℕ)} {x y : ℕ} (h : l.map Prod.fst = [x, y]) :
    ∃ a b, l = [(x, a), (y, b)] := by
  rcases l with _ | ⟨⟨x1, a⟩, _ | ⟨⟨y1, b⟩, _ | ⟨z, t⟩⟩⟩ <;> simp_all

lemma eq_quad_of_map_fst {l : List (ℕ × ℕ)} {x y z w : ℕ}
    (h : l.map Prod.fst = [x, y, z, w]) :
    ∃ a b c d, l = [(x, a), (y, b), (z, c), (w, d)] := by
  rcases l with _ | ⟨⟨x1, a⟩, _ | ⟨⟨y1, b⟩, _ | ⟨⟨z1, c⟩, _ | ⟨⟨w1, d⟩, _ | ⟨v, t⟩⟩⟩⟩⟩ <;>
    simp_all

/-- Finite check (over the integer mirror of Scenario C): among matchings
pairing persons 0 and 1 with two distinct rooms, only rooms `(0, 1)` reach
total weight `160`. -/
lemma weightC_unique : ∀ a < 2, ∀ b < 2, a ≠ b →
    (160 : ℤ) ≤ vgetZ valsCZ 0 a + vgetZ valsCZ 1 b → a = 0 ∧ b = 1 := by decide

set_option synthInstance.maxSize 4000 in
/-- Finite check (over the integer mirror of Scenario D): among matchings
pairing persons 0–3 with four distinct rooms, only rooms `(0, 1, 2, 3)`
reach total weight `108`. -/
lemma weightD_unique : ∀ a < 4, ∀ b < 4, ∀ c < 4, ∀ d < 4,
    (a ≠ b ∧ a ≠ c ∧ a ≠ d ∧ b ≠ c ∧ b ≠ d ∧ c ≠ d) →
    (108 : ℤ) ≤ vgetZ valsDZ 0 a + vgetZ valsDZ 1 b + vgetZ valsDZ 2 c + vgetZ valsDZ 3 d →
    a = 0 ∧ b = 1 ∧ c = 2 ∧ d = 3 := by decide

lemma vget_valsC_cast : ∀ i < 2, ∀ j < 2,
    vget valsC i j = ((vgetZ valsCZ i j : ℤ) : ℚ) := by
  intro i hi j hj
  interval_cases i <;> interval_cases j <;> norm_num [vget, vgetZ, valsC, valsCZ]

lemma vget_valsD_cast : ∀ i < 4, ∀ j < 4,
    vget valsD i j = ((vgetZ valsDZ i j : ℤ) : ℚ) := by
  intro i hi j hj
  interval_cases i <;> interval_cases j <;> norm_num [vget, vgetZ, valsD, valsDZ]

lemma valsC_nonneg : ∀ i j, 0 ≤ vget valsC i j := by
  apply vget_nonneg
  intro row hrow x hx
  fin_cases hrow <;> fin_cases hx <;> norm_num

lemma valsD_nonneg : ∀ i j, 0 ≤ vget valsD i j := by
  apply vget_nonneg
  intro row hrow x hx
  fin_cases hrow <;> fin_cases hx <;> norm_num

/-- For any maximum-weight matching of the Scenario C graph, the completed
sorted allocation assigns person 0 to room 0 and person 1 to room 1. -/
lemma allocC_eq (M : List (Vertex × Vertex)) (h : isMaxMatching valsC (fix_alloc M)) :
    max_sum_valuations valsC M = [(0, 0), (1, 1)] := by
  obtain ⟨hmat, hmax⟩ := h
  have hq : isMatchingList (num_people valsC) (num_rooms valsC) [(0, 0), (1, 1)] := by
    decide
  have hbase : matchWeight valsC [(0, 0), (1, 1)] = 160 := by
    simp only [matchWeight, List.map_cons, List.map_nil, List.sum_cons, List.sum_nil,
      show vget valsC 0 0 = 150 from rfl, show vget valsC 1 1 = 10 from rfl]
    norm_num
  have hge : (160 : ℚ) ≤ matchWeight valsC (fix_alloc M) := hbase ▸ hmax _ hq
  have hA : (160 : ℚ) ≤ matchWeight valsC (max_sum_valuations valsC M) :=
    le_trans hge (matchWeight_le_assign_rooms valsC (fix_alloc M) valsC_nonneg)
  have hfst : (max_sum_valuations valsC M).map Prod.fst = [0, 1] := by
    rw [show ([0, 1] : List ℕ) = List.range (num_people valsC) from rfl]
    exact assign_rooms_map_fst valsC (fix_alloc M) hmat (by decide)
  obtain ⟨a, b, hab⟩ := eq_pair_of_map_fst hfst
  have hbound : ∀ r ∈ (max_sum_valuations valsC M).map Prod.snd, r < 2 :=
    assign_rooms_map_snd_bound valsC (fix_alloc M)
      (fun r hr => by
        obtain ⟨pr, hpr, hpr2⟩ := List.mem_map.mp hr
        exact hpr2 ▸ (hmat.2.2 pr hpr).2)
  have hnodup : ((max_sum_valuations valsC M).map Prod.snd).Nodup :=
    assign_rooms_map_snd_nodup valsC (fix_alloc M) hmat.2.1
  rw [hab] at hA hbound hnodup
  have ha2 : a < 2 := hbound a (by simp)
  have hb2 : b < 2 := hbound b (by simp)
  have hne : a ≠ b := by
    simp only [List.map_cons, List.map_nil, List.nodup_cons] at hnodup
    intro hcontra
    exact hnodup.1 (by simp [hcontra])
  have hw : matchWeight valsC [(0, a), (1, b)] = vget valsC 0 a + vget valsC 1 b := by
    simp [matchWeight]
  rw [hw, vget_valsC_cast 0 (by norm_num) a ha2, vget_valsC_cast 1 (by norm_num) b hb2]
    at hA
  have hZ : (160 : ℤ) ≤ vgetZ valsCZ 0 a + vgetZ valsCZ 1 b := by exact_mod_cast hA
  obtain ⟨ha0, hb1⟩ := weightC_unique a ha2 b hb2 hne hZ
  rw [hab, ha0, hb1]

/-- For any maximum-weight matching of the Scenario D graph, the completed
sorted allocation assigns each person `i` to room `i`. -/
lemma allocD_eq (M : List (Vertex × Vertex)) (h : isMaxMatching valsD (fix_alloc M)) :
    max_sum_valuations valsD M = [(0, 0), (1, 1), (2, 2), (3, 3)] := by
  obtain ⟨hmat, hmax⟩ := h
  have hq : isMatchingList (num_people valsD) (num_rooms valsD) [(0, 0), (1, 1), (2, 2)] := by
    decide
  have hbase : matchWeight valsD [(0, 0), (1, 1), (2, 2)] = 108 := by
    simp only [matchWeight, List.map_cons, List.map_nil, List.sum_cons, List.sum_nil,
      show vget valsD 0 0 = 36 from rfl, show vget valsD 1 1 = 36 from rfl,
      show vget valsD 2 2 = 36 from rfl]
    norm_num
  have hge : (108 : ℚ) ≤ matchWeight valsD (fix_alloc M) := hbase ▸ hmax _ hq
  have hA : (108 : ℚ) ≤ matchWeight valsD (max_sum_valuations valsD M) :=
    le_trans hge (matchWeight_le_assign_rooms valsD (fix_alloc M) valsD_nonneg)
  have hfst : (max_sum_valuations valsD M).map Prod.fst = [0, 1, 2, 3] := by
    rw [show ([0, 1, 2, 3] : List ℕ) = List.range (num_people valsD) from rfl]
    exact assign_rooms_map_fst valsD (fix_alloc M) hmat (by decide)
  obtain ⟨a, b, c, d, hab⟩ := eq_quad_of_map_fst hfst
  have hbound : ∀ r ∈ (max_sum_valuations valsD M).map Prod.snd, r < 4 :=
    assign_rooms_map_snd_bound valsD (fix_alloc M)
      (fun r hr => by
        obtain ⟨pr, hpr, hpr2⟩ := List.mem_map.mp hr
        exact hpr2 ▸ (hmat.2.2 pr hpr).2)
  have hnodup : ((max_sum_valuations valsD M).map Prod.snd).Nodup :=
    assign_rooms_map_snd_nodup valsD (fix_alloc M) hmat.2.1
  rw [hab] at hA hbound hnodup
  have ha4 : a < 4 := hbound a (by simp)
  have hb4 : b < 4 := hbound b (by simp)
  have hc4 : c < 4 := hbound c (by simp)
  have hd4 : d < 4 := hbound d (by simp)
  have hsnd : ([(0, a), (1, b), (2, c), (3, d)].map Prod.snd) = [a, b, c, d] := by simp
  rw [hsnd] at hnodup
  have hdis : a ≠ b ∧ a ≠ c ∧ a ≠ d ∧ b ≠ c ∧ b ≠ d ∧ c ≠ d := by
    simp only [List.nodup_cons, List.mem_cons, List.mem_singleton, List.not_mem_nil,
      or_false, not_or, List.nodup_nil, and_true] at hnodup
    tauto
  have hw : matchWeight valsD [(0, a), (1, b), (2, c), (3, d)] =
      vget valsD 0 a + vget valsD 1 b + vget valsD 2 c + vget valsD 3 d := by
    simp [matchWeight]
    ring
  rw [hw, vget_valsD_cast 0 (by norm_num) a ha4, vget_valsD_cast 1 (by norm_num) b hb4,
    vget_valsD_cast 2 (by norm_num) c hc4, vget_valsD_cast 3 (by norm_num) d hd4] at hA
  have hZ : (108 : ℤ) ≤ vgetZ valsDZ 0 a + vgetZ valsDZ 1 b + vgetZ valsDZ 2 c +
      vgetZ valsDZ 3 d := by exact_mod_cast hA
  obtain ⟨ha0, hb1, hc2, hd3⟩ := weightD_unique a ha4 b hb4 c hc4 d hd4 hdis hZ
  rw [hab, ha0, hb1, hc2, hd3]

/-- The Scenario C pricing program is infeasible: with the welfare-maximal
allocation and rent 100, no nonnegative price vector is envy-free. -/
lemma scenarioC_infeasible : ¬ pricing_feasible valsC [(0, 0), (1, 1)] 100 := by
  rintro ⟨p, hlen, hsum, hpos, hef⟩
  have hlen2 : p.length = 2 := hlen
  rcases p with _ | ⟨p0, _ | ⟨p1, _ | ⟨q, t⟩⟩⟩
  · simp at hlen2
  · simp at hlen2
  · have hp1 : (0 : ℚ) ≤ p1 := hpos p1 (by simp)
    have hsum2 : p0 + p1 = 100 := by
      simp only [List.sum_cons, List.sum_nil] at hsum
      linarith
    have hef10 := hef (1, 1) (by simp) 0 (by decide) (by decide)
    rw [show vget valsC 1 0 = 140 from rfl, show vget valsC 1 1 = 10 from rfl,
      show price_get [p0, p1] 0 = p0 from rfl, show price_get [p0, p1] 1 = p1 from rfl]
      at hef10
    linarith
  · simp only [List.length_cons] at hlen2
    omega

/-- The Scenario D pricing program is infeasible: with the welfare-maximal
allocation and rent 100, no nonnegative price vector is envy-free. -/
lemma scenarioD_infeasible :
    ¬ pricing_feasible valsD [(0, 0), (1, 1), (2, 2), (3, 3)] 100 := by
  rintro ⟨p, hlen, hsum, hpos, hef⟩
  have hlen2 : p.length = 4 := hlen
  rcases p with _ | ⟨p0, _ | ⟨p1, _ | ⟨p2, _ | ⟨p3, _ | ⟨q, t⟩⟩⟩⟩⟩
  · simp at hlen2
  · simp at hlen2
  · simp at hlen2
  · simp at hlen2
  · have hp3 : (0 : ℚ) ≤ p3 := hpos p3 (by simp)
    have hsum2 : p0 + p1 + p2 + p3 = 100 := by
      simp only [List.sum_cons, List.sum_nil] at hsum
      linarith
    have h30 := hef (3, 3) (by simp) 0 (by decide) (by decide)
    have h31 := hef (3, 3) (by simp) 1 (by decide) (by decide)
    have h32 := hef (3, 3) (by simp) 2 (by decide) (by decide)
    have h20 := hef (2, 2) (by simp) 0 (by decide) (by decide)
    rw [show vget valsD 3 0 = 32 from rfl, show vget valsD 3 3 = 0 from rfl,
      show price_get [p0, p1, p2, p3] 0 = p0 from rfl,
      show price_get [p0, p1, p2, p3] 3 = p3 from rfl] at h30
    rw [show vget valsD 3 1 = 33 from rfl, show vget valsD 3 3 = 0 from rfl,
      show price_get [p0, p1, p2, p3] 1 = p1 from rfl,
      show price_get [p0, p1, p2, p3] 3 = p3 from rfl] at h31
    rw [show vget valsD 3 2 = 35 from rfl, show vget valsD 3 3 = 0 from rfl,
      show price_get [p0, p1, p2, p3] 2 = p2 from rfl,
      show price_get [p0, p1, p2, p3] 3 = p3 from rfl] at h32
    rw [show vget valsD 2 0 = 34 from rfl, show vget valsD 2 2 = 36 from rfl,
      show price_get [p0, p1, p2, p3] 0 = p0 from rfl,
      show price_get [p0, p1, p2, p3] 2 = p2 from rfl] at h20
    linarith
  · simp only [List.length_cons] at hlen2
    omega

/-- Dual certificate for Scenario C: every matching weighs at most 160. -/
lemma valsC_weight_le (q : List (ℕ × ℕ))
    (hq : isMatchingList (num_people valsC) (num_rooms valsC) q) :
    matchWeight valsC q ≤ 160 := by
  have hb := matchWeight_le_potentials valsC 2 2
    (fun i => if i = 0 then 10 else 0)
    (fun j => if j = 0 then 140 else if j = 1 then 10 else 0)
    (fun i => by beta_reduce; split_ifs <;> norm_num)
    (fun j => by beta_reduce; split_ifs <;> norm_num)
    (by
      intro i j hi hj
      interval_cases i <;> interval_cases j <;>
        norm_num [show vget valsC 0 0 = (150 : ℚ) from rfl,
          show vget valsC 0 1 = (0 : ℚ) from rfl,
          show vget valsC 1 0 = (140 : ℚ) from rfl,
          show vget valsC 1 1 = (10 : ℚ) from rfl])
    q hq
  have hS : ((List.range 2).map (fun i => if i = 0 then (10 : ℚ) else 0)).sum +
      ((List.range 2).map (fun j => if j = 0 then (140 : ℚ) else
        if j = 1 then 10 else 0)).sum = 160 := by
    rw [show List.range 2 = [0, 1] from rfl]
    norm_num
  linarith

/-- Dual certificate for Scenario D: every matching weighs at most 108. -/
lemma valsD_weight_le (q : List (ℕ × ℕ))
    (hq : isMatchingList (num_people valsD) (num_rooms valsD) q) :
    matchWeight valsD q ≤ 108 := by
  have hb := matchWeight_le_potentials valsD 4 4
    (fun i => if i = 0 then 3 else if i = 1 then 3 else if i = 2 then 1 else 0)
    (fun j => if j = 0 then 33 else if j = 1 then 33 else if j = 2 then 35 else 0)
    (fun i => by beta_reduce; split_ifs <;> norm_num)
    (fun j => by beta_reduce; split_ifs <;> norm_num)
    (by
      intro i j hi hj
      interval_cases i <;> interval_cases j <;>
        norm_num [show vget valsD 0 0 = (36 : ℚ) from rfl,
          show vget valsD 0 1 = (34 : ℚ) from rfl,
          show vget valsD 0 2 = (30 : ℚ) from rfl,
          show vget valsD 0 3 = (0 : ℚ) from rfl,
          show vget valsD 1 0 = (31 : ℚ) from rfl,
          show vget valsD 1 1 = (36 : ℚ) from rfl,
          show vget valsD 1 2 = (33 : ℚ) from rfl,
          show vget valsD 1 3 = (0 : ℚ) from rfl,
          show vget valsD 2 0 = (34 : ℚ) from rfl,
          show vget valsD 2 1 = (30 : ℚ) from rfl,
          show vget valsD 2 2 = (36 : ℚ) from rfl,
          show vget valsD 2 3 = (0 : ℚ) from rfl,
          show vget valsD 3 0 = (32 : ℚ) from rfl,
          show vget valsD 3 1 = (33 : ℚ) from rfl,
          show vget valsD 3 2 = (35 : ℚ) from rfl,
          show vget valsD 3 3 = (0 : ℚ) from rfl])
    q hq
  have hS : ((List.range 4).map (fun i => if i = 0 then (3 : ℚ) else if i = 1 then 3 else
      if i = 2 then 1 else 0)).sum +
      ((List.range 4).map (fun j => if j = 0 then (33 : ℚ) else if j = 1 then 33 else
        if j = 2 then 35 else 0)).sum = 108 := by
    rw [show List.range 4 = [0, 1, 2, 3] from rfl]
    norm_num
  linarith

/-- The matching of `nxC` is a maximum-weight matching for Scenario C. -/
lemma maxMatchingC : isMaxMatching valsC (fix_alloc nxC) := by
  constructor
  · decide
  · intro q hq
    have h1 := valsC_weight_le q hq
    have h2 : matchWeight valsC (fix_alloc nxC) = 160 := by
      rw [show fix_alloc nxC = [(0, 0), (1, 1)] from rfl]
      simp only [matchWeight, List.map_cons, List.map_nil, List.sum_cons, List.sum_nil,
        show vget valsC 0 0 = 150 from rfl, show vget valsC 1 1 = 10 from rfl]
      norm_num
    linarith

/-- The matching of `nxD` is a maximum-weight matching for Scenario D. -/
lemma maxMatchingD : isMaxMatching valsD (fix_alloc nxD) := by
  constructor
  · decide
  · intro q hq
    have h1 := valsD_weight_le q hq
    have h2 : matchWeight valsD (fix_alloc nxD) = 108 := by
      rw [show fix_alloc nxD = [(0, 0), (1, 1), (2, 2), (3, 3)] from rfl]
      simp only [matchWeight, List.map_cons, List.map_nil, List.sum_cons, List.sum_nil,
        show vget valsD 0 0 = 36 from rfl, show vget valsD 1 1 = 36 from rfl,
        show vget valsD 2 2 = 36 from rfl, show vget valsD 3 3 = 0 from rfl]
      norm_num
    linarith

/-- A tiny valid valuation matrix used to instantiate witnesses. -/
lemma validMatrix_single : validMatrix [[(1 : ℚ)]] := by
  refine ⟨le_refl _, le_refl _, ?_, ?_⟩
  · intro row hrow
    simp only [List.mem_singleton] at hrow
    subst hrow
    rfl
  · intro row hrow x hx
    simp only [List.mem_singleton] at hrow
    subst hrow
    simp only [List.mem_singleton] at hx
    subst hx
    norm_num

/-- The trivial one-person, one-room pricing program is satisfied by the
price vector `[1]` with rent 1. -/
lemma single_constraints_hold :
    pricing_constraints_hold [[(1 : ℚ)]]
      (max_sum_valuations [[(1 : ℚ)]] [(Vertex.person 0, Vertex.room 0)]) 1 [1] := by
  rw [show max_sum_valuations [[(1 : ℚ)]] [(Vertex.person 0, Vertex.room 0)] = [(0, 0)]
    from by decide]
  refine ⟨rfl, by norm_num, ?_, ?_⟩
  · intro x hx
    simp only [List.mem_singleton] at hx
    rw [hx]
    norm_num
  · intro pr hpr other hother hne
    simp only [List.mem_singleton] at hpr
    subst hpr
    have h1 : other < 1 := hother
    exact absurd (by omega : other = 0) hne

/-! ### Claim theorems -/

/-- C1: For every returned price vector (pricer run on a valid valuation
matrix, its computed allocation, and a nonnegative rent, with the solve
reporting success), the prices sum to the rent within numeric tolerance,
every price is at least `-ε`, and for every allocated pair (agent `i`,
good `o`) and every other good `j ≠ o`,
`valuations[i][o] - price[o] ≥ valuations[i][j] - price[j] - ε`. -/
theorem spec2proof_C1 (valuations : List (List ℚ)) (M : List (Vertex × Vertex))
    (rent ε : ℚ) (run : SolveRun)
    (hvalid : validMatrix valuations) (hrent : 0 ≤ rent) (hε : 0 ≤ ε)
    (hopt : run.status = SolveStatus.optimal)
    (hsolver : solver_ok valuations (max_sum_valuations valuations M) rent run) :
    |run.point.sum - rent| ≤ ε ∧
    (∀ j < num_rooms valuations, -ε ≤ price_get run.point j) ∧
    (∀ pr ∈ max_sum_valuations valuations M, ∀ j < num_rooms valuations, j ≠ pr.2 →
      vget valuations pr.1 j - price_get run.point j - ε ≤
        vget valuations pr.1 pr.2 - price_get run.point pr.2) := by
  obtain ⟨hlen, hsum, hpos, hef⟩ := hsolver.1 hopt
  refine ⟨?_, ?_, ?_⟩
  · rw [hsum]
    simpa using hε
  · intro j hj
    have h0 : 0 ≤ price_get run.point j := by
      unfold price_get
      by_cases hjl : j < run.point.length
      · have hmem : run.point.getD j 0 ∈ run.point := by
          rw [List.getD_eq_getElem _ _ hjl]
          exact List.getElem_mem hjl
        exact hpos _ hmem
      · rw [List.getD_eq_default _ _ (Nat.le_of_not_lt hjl)]
    linarith
  · intro pr hpr j hj hne
    have := hef pr hpr j hj hne
    linarith

/-- Witness for C1 at the one-person, one-room matrix `[[1]]`, rent 1,
tolerance 0, and the solver returning the optimal point `[1]`. -/
theorem spec2proof_C1_witness :
    |(SolveRun.mk SolveStatus.optimal [1]).point.sum - 1| ≤ 0 ∧
    (∀ j < num_rooms [[(1 : ℚ)]],
      -0 ≤ price_get (SolveRun.mk SolveStatus.optimal [1]).point j) ∧
    (∀ pr ∈ max_sum_valuations [[(1 : ℚ)]] [(Vertex.person 0, Vertex.room 0)],
      ∀ j < num_rooms [[(1 : ℚ)]], j ≠ pr.2 →
      vget [[(1 : ℚ)]] pr.1 j - price_get (SolveRun.mk SolveStatus.optimal [1]).point j - 0 ≤
        vget [[(1 : ℚ)]] pr.1 pr.2 -
          price_get (SolveRun.mk SolveStatus.optimal [1]).point pr.2) :=
  spec2proof_C1 [[(1 : ℚ)]] [(Vertex.person 0, Vertex.room 0)] 1 0
    (SolveRun.mk SolveStatus.optimal [1]) validMatrix_single (by norm_num) (le_refl 0)
    rfl (by exact ⟨fun _ => single_constraints_hold,
      fun hnf => absurd ⟨[1], single_constraints_hold⟩ hnf⟩)

/-- C2: For every valid valuation matrix with at least as many goods as
agents, and every matching returned by the external matcher, the completed
sorted allocation lists the agent indices exactly as `0, 1, ..., n-1`:
each agent appears exactly once, in ascending order. -/
theorem spec2proof_C2 (valuations : List (List ℚ)) (M : List (Vertex × Vertex))
    (hvalid : validMatrix valuations)
    (hnm : num_people valuations ≤ num_rooms valuations)
    (hmat : isMatchingList (num_people valuations) (num_rooms valuations) (fix_alloc M)) :
    (max_sum_valuations valuations M).map Prod.fst = List.range (num_people valuations) :=
  assign_rooms_map_fst valuations (fix_alloc M) hmat hnm

/-- Witness for C2 at the matrix `[[1]]` with the empty matching. -/
theorem spec2proof_C2_witness :
    (max_sum_valuations [[(1 : ℚ)]] []).map Prod.fst = List.range (num_people [[(1 : ℚ)]]) :=
  spec2proof_C2 [[(1 : ℚ)]] [] validMatrix_single (le_refl _) (by decide)

/-- C3: For every valid valuation matrix and every matching returned by the
external matcher, no two pairs of the completed sorted allocation share a
good index — neither among the matcher's pairs nor among the pairs added by
the completion step. -/
theorem spec2proof_C3 (valuations : List (List ℚ)) (M : List (Vertex × Vertex))
    (hvalid : validMatrix valuations)
    (hmat : isMatchingList (num_people valuations) (num_rooms valuations) (fix_alloc M)) :
    ((max_sum_valuations valuations M).map Prod.snd).Nodup :=
  assign_rooms_map_snd_nodup valuations (fix_alloc M) hmat.2.1

/-- Witness for C3 at the matrix `[[1]]` with the empty matching. -/
theorem spec2proof_C3_witness :
    ((max_sum_valuations [[(1 : ℚ)]] []).map Prod.snd).Nodup :=
  spec2proof_C3 [[(1 : ℚ)]] [] validMatrix_single (by decide)

/-- C4: For every valuation matrix and every partial matching, the
completion loop equals the specified deterministic completion: it processes
the unallocated agent indices in ascending order (the ascending `range`
filtered to the unallocated ones), gives each the lowest-index good not
already claimed — goods claimed earlier in the same pass count as claimed —
and when no good remains the agent is left out of the allocation and
reported in the warning list (the second component) instead of raising. -/
theorem spec2proof_C4 (valuations : List (List ℚ)) (fixed_alloc : List (ℕ × ℕ)) :
    complete_allocation fixed_alloc valuations =
      (fixed_alloc ++ (completionSpec (num_rooms valuations)
          ((List.range (num_people valuations)).filter
            (fun p => !((fixed_alloc.map Prod.fst).contains p)))
          (fixed_alloc.map Prod.snd)).1,
       (completionSpec (num_rooms valuations)
          ((List.range (num_people valuations)).filter
            (fun p => !((fixed_alloc.map Prod.fst).contains p)))
          (fixed_alloc.map Prod.snd)).2) := by
  have h := assign_foldl_eq_spec valuations (fixed_alloc.map Prod.fst)
    (List.range (num_people valuations)) (fixed_alloc, [])
  simpa using h

/-- C5: Whenever the feasible region of the pricing program is empty and the
solver honours its contract, the pricer produces exactly the explicit
infeasibility message: it does not crash and does not output any price
vector (partial, zero-filled or otherwise). -/
theorem spec2proof_C5 (valuations : List (List ℚ)) (M : List (Vertex × Vertex))
    (rent : ℚ) (run : SolveRun)
    (hvalid : validMatrix valuations)
    (hsolver : solver_ok valuations (max_sum_valuations valuations M) rent run)
    (hinf : ¬ pricing_feasible valuations (max_sum_valuations valuations M) rent) :
    find_rent_with_nonnegative_prices valuations rent M run = PricerOutput.failure := by
  have hstat := hsolver.2 hinf
  rcases valuations with _ | ⟨row, rest⟩
  · exact absurd hvalid.1 (by simp [num_people])
  · simp [find_rent_with_nonnegative_prices, hstat]

/-- Witness for C5 at Scenario C with the solver reporting infeasible. -/
theorem spec2proof_C5_witness :
    find_rent_with_nonnegative_prices valsC 100 nxC
      (SolveRun.mk SolveStatus.infeasible []) = PricerOutput.failure :=
  spec2proof_C5 valsC nxC 100 (SolveRun.mk SolveStatus.infeasible [])
    (by
      refine ⟨by norm_num [num_people, valsC], by norm_num [num_rooms, valsC], ?_, ?_⟩
      · intro row hrow
        fin_cases hrow <;> rfl
      · intro row hrow x hx
        fin_cases hrow <;> fin_cases hx <;> norm_num)
    (by exact ⟨fun h => SolveStatus.noConfusion h, fun _ => rfl⟩)
    (by
      rw [show max_sum_valuations valsC nxC = [(0, 0), (1, 1)] from by decide]
      exact scenarioC_infeasible)

/-- C6: For the Scenario C valuations with rent 100 and the Scenario D
valuations with rent 100, any run of the pricer on a maximum-weight matching
with a contract-honouring solver reports the infeasibility message: no
nonnegative envy-free price vector exists for the welfare-maximising
allocation. -/
theorem spec2proof_C6 (M1 M2 : List (Vertex × Vertex)) (run1 run2 : SolveRun)
    (hmax1 : isMaxMatching valsC (fix_alloc M1))
    (hmax2 : isMaxMatching valsD (fix_alloc M2))
    (hs1 : solver_ok valsC (max_sum_valuations valsC M1) 100 run1)
    (hs2 : solver_ok valsD (max_sum_valuations valsD M2) 100 run2) :
    find_rent_with_nonnegative_prices valsC 100 M1 run1 = PricerOutput.failure ∧
    find_rent_with_nonnegative_prices valsD 100 M2 run2 = PricerOutput.failure := by
  constructor
  · have hinf : ¬ pricing_feasible valsC (max_sum_valuations valsC M1) 100 := by
      rw [allocC_eq M1 hmax1]
      exact scenarioC_infeasible
    have hstat := hs1.2 hinf
    simp [find_rent_with_nonnegative_prices, hstat, show valsC.isEmpty = false from rfl]
  · have hinf : ¬ pricing_feasible valsD (max_sum_valuations valsD M2) 100 := by
      rw [allocD_eq M2 hmax2]
      exact scenarioD_infeasible
    have hstat := hs2.2 hinf
    simp [find_rent_with_nonnegative_prices, hstat, show valsD.isEmpty = false from rfl]

/-- Witness for C6 at the docstring matchings with infeasible solver runs. -/
theorem spec2proof_C6_witness :
    find_rent_with_nonnegative_prices valsC 100 nxC
      (SolveRun.mk SolveStatus.infeasible []) = PricerOutput.failure ∧
    find_rent_with_nonnegative_prices valsD 100 nxD
      (SolveRun.mk SolveStatus.infeasible []) = PricerOutput.failure :=
  spec2proof_C6 nxC nxD (SolveRun.mk SolveStatus.infeasible [])
    (SolveRun.mk SolveStatus.infeasible []) maxMatchingC maxMatchingD
    (by exact ⟨fun h => SolveStatus.noConfusion h, fun _ => rfl⟩)
    (by exact ⟨fun h => SolveStatus.noConfusion h, fun _ => rfl⟩)

/-- Counterexample to C7: the empty valuation matrix — a malformed input —
is not rejected with a report before matching; the pricer crashes on
`valuations[0]` (an uncaught `IndexError`). -/
theorem spec2proof_C7_counterexample :
    find_rent_with_nonnegative_prices [] 100 [] (SolveRun.mk SolveStatus.optimal []) =
      PricerOutput.crash := rfl

/-- C7 amended: the code performs no input validation at all.  An empty
valuation matrix crashes the pricer with an uncaught exception rather than
being rejected with a report, and a matrix with negative values flows
through matching and completion to an ordinary allocation rather than being
rejected. -/
theorem spec2proof_C7_amended :
    find_rent_with_nonnegative_prices [] 100 [] (SolveRun.mk SolveStatus.optimal []) =
      PricerOutput.crash ∧
    max_sum_valuations [[-1]] [] = [(0, 0)] :=
  ⟨rfl, by decide⟩

/-- Counterexample to C8: a solver that terminates without deciding (an
inaccurate/indeterminate status) produces exactly the same observable
outcome as a clean infeasibility determination, so the caller cannot tell
"provably no solution" apart from "solver could not decide". -/
theorem spec2proof_C8_counterexample :
    find_rent_with_nonnegative_prices valsC 100 nxC
      (SolveRun.mk SolveStatus.inaccurate []) =
    find_rent_with_nonnegative_prices valsC 100 nxC
      (SolveRun.mk SolveStatus.infeasible []) := rfl

/-- C8 amended: only an exception-raising solver failure is distinguishable
from clean infeasibility (the exception escapes, while infeasibility prints
the message); a solver that terminates with any non-optimal status —
including could-not-decide statuses — is reported identically to clean
infeasibility. -/
theorem spec2proof_C8_amended :
    find_rent_with_nonnegative_prices valsC 100 nxC
      (SolveRun.mk SolveStatus.error []) = PricerOutput.crash ∧
    find_rent_with_nonnegative_prices valsC 100 nxC
      (SolveRun.mk SolveStatus.infeasible []) = PricerOutput.failure ∧
    find_rent_with_nonnegative_prices valsC 100 nxC
      (SolveRun.mk SolveStatus.inaccurate []) = PricerOutput.failure ∧
    PricerOutput.crash ≠ PricerOutput.failure :=
  ⟨rfl, rfl, rfl, by decide⟩

/-- Counterexample to C9: on a successful solve the pricer's observable
output contains the `np.round`-ed prices, not the real-valued vector found
by the solver: for the solver point `[1/2, 1/2]` (which satisfies every
constraint exactly) the output prices are `[0, 0]`. -/
theorem spec2proof_C9_counterexample :
    pricing_constraints_hold [[(1 : ℚ), 0], [0, 1]] [(0, 0), (1, 1)] 1 [1/2, 1/2] ∧
    find_rent_with_nonnegative_prices [[(1 : ℚ), 0], [0, 1]] 1
      [(Vertex.person 0, Vertex.room 0), (Vertex.person 1, Vertex.room 1)]
      (SolveRun.mk SolveStatus.optimal [1/2, 1/2]) =
      PricerOutput.success [(0, 0), (1, 1)] [0, 0] ∧
    ((1 : ℚ)/2 ≠ 0) := by
  refine ⟨?_, ?_, by norm_num⟩
  · refine ⟨rfl, by norm_num, ?_, ?_⟩
    · intro x hx
      simp only [List.mem_cons, List.mem_singleton, List.not_mem_nil, or_false] at hx
      rcases hx with h | h <;> rw [h] <;> norm_num
    · intro pr hpr other hother hne
      have h2 : other < 2 := hother
      simp only [List.mem_cons, List.mem_singleton, List.not_mem_nil, or_false] at hpr
      rcases hpr with h | h <;> subst h
      · have ho : other = 1 := by omega
        subst ho
        rw [show vget [[(1 : ℚ), 0], [0, 1]] 0 1 = 0 from rfl,
          show vget [[(1 : ℚ), 0], [0, 1]] 0 0 = 1 from rfl,
          show price_get [(1 : ℚ)/2, 1/2] 1 = 1/2 from rfl,
          show price_get [(1 : ℚ)/2, 1/2] 0 = 1/2 from rfl]
        norm_num
      · have ho : other = 0 := by omega
        subst ho
        rw [show vget [[(1 : ℚ), 0], [0, 1]] 1 0 = 0 from rfl,
          show vget [[(1 : ℚ), 0], [0, 1]] 1 1 = 1 from rfl,
          show price_get [(1 : ℚ)/2, 1/2] 1 = 1/2 from rfl,
          show price_get [(1 : ℚ)/2, 1/2] 0 = 1/2 from rfl]
        norm_num
  · have hms : max_sum_valuations [[(1 : ℚ), 0], [0, 1]]
        [(Vertex.person 0, Vertex.room 0), (Vertex.person 1, Vertex.room 1)] =
        [(0, 0), (1, 1)] := by decide
    have hnp : np_round (1/2) = 0 := by norm_num [np_round]
    have hnp2 : np_round (2⁻¹ : ℚ) = 0 := by norm_num [np_round]
    simp [find_rent_with_nonnegative_prices, hms, hnp, hnp2]

/-- C9 amended: on every successful solve (of a nonempty matrix), the
pricer's output is the allocation together with the solver's price vector
rounded entrywise by `np.round`; the rounding happens inside the pricer
itself and the unrounded vector is not part of the output. -/
theorem spec2proof_C9_amended (valuations : List (List ℚ)) (M : List (Vertex × Vertex))
    (rent : ℚ) (run : SolveRun) (hne : valuations ≠ [])
    (hopt : run.status = SolveStatus.optimal) :
    find_rent_with_nonnegative_prices valuations rent M run =
      PricerOutput.success (max_sum_valuations valuations M)
        (run.point.map (fun q => ((np_round q : ℤ) : ℚ))) := by
  have hempty : valuations.isEmpty = false := by
    rcases valuations with _ | _
    · exact absurd rfl hne
    · rfl
  simp [find_rent_with_nonnegative_prices, hempty, hopt]

/-- Witness for the amended C9 at the matrix `[[1]]` with solver point `[5/2]`. -/
theorem spec2proof_C9_amended_witness :
    find_rent_with_nonnegative_prices [[(1 : ℚ)]] 1 []
      (SolveRun.mk SolveStatus.optimal [5/2]) =
      PricerOutput.success (max_sum_valuations [[(1 : ℚ)]] [])
        ([(5 : ℚ)/2].map (fun q => ((np_round q : ℤ) : ℚ))) :=
  spec2proof_C9_amended [[(1 : ℚ)]] [] 1 (SolveRun.mk SolveStatus.optimal [5/2])
    (by simp) rfl

/-- C10: For every valuation matrix and every matching handed to the
pipeline, every normalised (agent, good) pair of the matching appears
unchanged in the final allocation, and every pair of the final allocation is
either a pair of the normalised matching or a completion pair for an agent
the matching left unallocated — the completion step never removes,
reassigns, or modifies a matcher pair. -/
theorem spec2proof_C10 (valuations : List (List ℚ)) (M : List (Vertex × Vertex)) :
    (∀ e ∈ M, fix_pair e ∈ max_sum_valuations valuations M) ∧
    (∀ pr ∈ max_sum_valuations valuations M,
      pr ∈ fix_alloc M ∨ pr.1 ∉ (fix_alloc M).map Prod.fst) := by
  obtain ⟨t, ht, ht2⟩ := assign_foldl_frame valuations ((fix_alloc M).map Prod.fst)
    (List.range (num_people valuations)) (fix_alloc M, [])
  have hca : (complete_allocation (fix_alloc M) valuations).1 = fix_alloc M ++ t := ht
  have hperm := assign_rooms_perm (fix_alloc M) valuations
  constructor
  · intro e he
    have h1 : fix_pair e ∈ fix_alloc M := List.mem_map.mpr ⟨e, he, rfl⟩
    have h2 : fix_pair e ∈ (complete_allocation (fix_alloc M) valuations).1 := by
      rw [hca]
      exact List.mem_append.mpr (Or.inl h1)
    exact hperm.mem_iff.mpr h2
  · intro pr hpr
    have h1 : pr ∈ (complete_allocation (fix_alloc M) valuations).1 :=
      hperm.mem_iff.mp hpr
    rw [hca] at h1
    rcases List.mem_append.mp h1 with h | h
    · exact Or.inl h
    · exact Or.inr (ht2 pr h).2
